import Mathlib

/-!
Verification of the SubgraphSolver core (`gtsam/linear/SubgraphSolver.cpp`).

The development shallowly embeds the solver's data model and operations:

* `Factor`, factor graphs as ordered lists of factors (a `GaussianFactorGraph`
  is an insertion-ordered sequence; only the key lists matter to the splitter);
* `DSF`, the disjoint-set forest used by `splitGraph` (union-find,
  modelled from the spec since `DSFMap` is an external dependency);
* `splitAux` / `splitGraph`, the Kruskal-style splitter of
  `SubgraphSolver::splitGraph` (lines 128-163), made total by returning
  an explicit error for malformed factors and out-of-bounds key accesses;
* a model of the preconditioner / conjugate-gradient pipeline used by
  `optimize`, with the external collaborators (eliminator, per-factor
  gradient, implicit operator) passed in as parameters.
-/

/-- A variable identifier, as in the source an ordered opaque handle. -/
abbrev Key := Nat

/-- A linear factor as seen by the splitter: the source only inspects
`factor->keys()`, so the embedding carries exactly the key list. -/
structure Factor where
  keys : List Key
deriving DecidableEq, Repr

/-- Modelled from the spec: the Disjoint-Set Forest over variable
identifiers (`DSFMap<Key>`, an external dependency of `splitGraph`).
A state is a representative assignment; an unseen key is its own
representative (lazy initialization). -/
def DSF : Type := Key → Key

/-- Modelled from the spec: the initial DSF, every key its own set. -/
def DSF.empty : DSF := fun k => k

/-- Modelled from the spec: `find(key) -> representative`. -/
def DSF.find (d : DSF) (k : Key) : Key := d k

/-- Modelled from the spec: `merge(a, b)` unions the two sets; afterwards
`find a = find b`.  The surviving representative is `a`'s (the spec leaves
the policy free). -/
def DSF.merge (d : DSF) (a b : Key) : DSF :=
  fun x => if d x = d b then d a else d x

/-- The ways `splitGraph` can abort: the explicit `runtime_error` thrown
for factors with more than two keys, and the out-of-bounds key accesses
`keys[0]` / `keys[1]` that an arity-0 factor reaches. -/
inductive SplitError where
  | malformed
  | outOfBounds
deriving DecidableEq, Repr

instance {ε α : Type} [DecidableEq ε] [DecidableEq α] : DecidableEq (Except ε α) :=
  fun a b =>
    match a, b with
    | .ok x, .ok y => decidable_of_iff (x = y) (by simp)
    | .error x, .error y => decidable_of_iff (x = y) (by simp)
    | .ok _, .error _ => isFalse (by simp)
    | .error _, .ok _ => isFalse (by simp)

/-- The loop body of `SubgraphSolver::splitGraph` (lines 139-160), with the
running DSF state and the two output graphs as accumulators.  For each
factor in input order: more than two keys throws the malformed error;
one key appends to the tree; otherwise `keys[0]` and `keys[1]` are read
(out of bounds for an empty key list) and the factor goes to the tree with
a merge when the two representatives differ, else to the constraints. -/
def splitAux (d : DSF) (tree cons : List Factor) :
    List Factor → Except SplitError (DSF × List Factor × List Factor)
  | [] => .ok (d, tree, cons)
  | f :: fs =>
    if 2 < f.keys.length then .error .malformed
    else if f.keys.length = 1 then splitAux d (tree ++ [f]) cons fs
    else
      match f.keys[0]?, f.keys[1]? with
      | some a, some b =>
        if DSF.find d a ≠ DSF.find d b then
          splitAux (DSF.merge d a b) (tree ++ [f]) cons fs
        else
          splitAux d tree (cons ++ [f]) fs
      | _, _ => .error .outOfBounds

/-- `SubgraphSolver::splitGraph`: split a factor graph into the spanning
tree graph and the constraints graph. -/
def splitGraph (g : List Factor) : Except SplitError (List Factor × List Factor) :=
  match splitAux DSF.empty [] [] g with
  | .ok r => .ok (r.2.1, r.2.2)
  | .error e => .error e

example :
    splitGraph [⟨[1, 2]⟩, ⟨[2, 3]⟩, ⟨[1, 3]⟩] =
      .ok ([⟨[1, 2]⟩, ⟨[2, 3]⟩], [⟨[1, 3]⟩]) := by decide

example : splitGraph [⟨[1, 2, 3]⟩] = .error .malformed := by decide

example : splitGraph [Factor.mk []] = .error .outOfBounds := by decide

/-- The loop processes a concatenation by first consuming the left part and
continuing from the reached state: the state-passing version of the single
`for` loop of `splitGraph`. -/
theorem splitAux_append (xs ys : List Factor) : ∀ d t c,
    splitAux d t c (xs ++ ys) =
      match splitAux d t c xs with
      | .ok r => splitAux r.1 r.2.1 r.2.2 ys
      | .error e => .error e := by
  induction xs with
  | nil => intro d t c; simp [splitAux]
  | cons f fs ih =>
    intro d t c
    simp only [List.cons_append, splitAux]
    split
    · rfl
    · split
      · exact ih _ _ _
      · split
        · split
          · exact ih _ _ _
          · exact ih _ _ _
        · rfl

/-- A binary factor that reaches the `keys[0]` / `keys[1]` accesses without
triggering the arity guards has exactly two keys. -/
theorem keys_eq_pair (l : List Key) (a b : Key)
    (hle : ¬ 2 < l.length) (h0 : l[0]? = some a) (h1 : l[1]? = some b) :
    l = [a, b] := by
  match l, h0, h1 with
  | x :: y :: rest, h0, h1 =>
    simp only [List.getElem?_cons_zero, Option.some.injEq] at h0
    simp only [List.getElem?_cons_succ, List.getElem?_cons_zero, Option.some.injEq] at h1
    subst h0; subst h1
    match rest with
    | [] => rfl
    | z :: _ => exfalso; apply hle; simp only [List.length_cons]; omega

/-- Decomposition of a successful run of the splitter loop: the outputs
extend the accumulators by interleaved pieces of the remaining input.
Bundles the facts used by the partition, ordering and unary-placement
claims. -/
theorem splitAux_delta (fs : List Factor) : ∀ d t c d2 t2 c2,
    splitAux d t c fs = .ok (d2, t2, c2) →
    ∃ dt dc, t2 = t ++ dt ∧ c2 = c ++ dc ∧
      dt.Sublist fs ∧ dc.Sublist fs ∧
      dt.length + dc.length = fs.length ∧
      (∀ f, fs.count f = dt.count f + dc.count f) ∧
      (∀ f ∈ dc, f.keys.length = 2) ∧
      (∀ f ∈ dt, f.keys.length = 1 ∨ f.keys.length = 2) := by
  induction fs with
  | nil =>
    intro d t c d2 t2 c2 h
    simp only [splitAux, Except.ok.injEq, Prod.mk.injEq] at h
    refine ⟨[], [], ?_, ?_, ?_, ?_, ?_, ?_, ?_, ?_⟩ <;>
      simp [h.2.1.symm, h.2.2.symm]
  | cons f fs ih =>
    intro d t c d2 t2 c2 h
    simp only [splitAux] at h
    split at h
    · exact absurd h (by simp)
    · rename_i hgt
      split at h
      · rename_i h1
        obtain ⟨dt, dc, ht, hc, hst, hsc, hlen, hcount, hdc, hdt⟩ := ih _ _ _ _ _ _ h
        refine ⟨f :: dt, dc, by simp [ht], hc, List.Sublist.cons₂ _ hst,
          List.Sublist.cons _ hsc, by simp only [List.length_cons]; omega, ?_, hdc, ?_⟩
        · intro g
          simp only [List.count_cons, hcount]
          omega
        · intro g hg
          rcases List.mem_cons.mp hg with hg | hg
          · exact Or.inl (hg ▸ h1)
          · exact hdt g hg
      · split at h
        · rename_i a b h0 h1
          have hpair : f.keys = [a, b] := keys_eq_pair _ _ _ hgt h0 h1
          split at h
          · obtain ⟨dt, dc, ht, hc, hst, hsc, hlen, hcount, hdc, hdt⟩ := ih _ _ _ _ _ _ h
            refine ⟨f :: dt, dc, by simp [ht], hc, List.Sublist.cons₂ _ hst,
              List.Sublist.cons _ hsc, by simp only [List.length_cons]; omega, ?_, hdc, ?_⟩
            · intro g
              simp only [List.count_cons, hcount]
              omega
            · intro g hg
              rcases List.mem_cons.mp hg with hg | hg
              · exact Or.inr (by rw [hg, hpair]; rfl)
              · exact hdt g hg
          · obtain ⟨dt, dc, ht, hc, hst, hsc, hlen, hcount, hdc, hdt⟩ := ih _ _ _ _ _ _ h
            refine ⟨dt, f :: dc, ht, by simp [hc], List.Sublist.cons _ hst,
              List.Sublist.cons₂ _ hsc, by simp only [List.length_cons]; omega, ?_, ?_, hdt⟩
            · intro g
              simp only [List.count_cons, hcount]
              omega
            · intro g hg
              rcases List.mem_cons.mp hg with hg | hg
              · rw [hg, hpair]; rfl
              · exact hdc g hg
        · exact absurd h (by simp)

/-- A successful `splitGraph` run exposes a successful loop run with some
final DSF state. -/
theorem splitGraph_ok (g t c : List Factor) (h : splitGraph g = .ok (t, c)) :
    ∃ d, splitAux DSF.empty [] [] g = .ok (d, t, c) := by
  unfold splitGraph at h
  cases hx : splitAux DSF.empty [] [] g with
  | ok r =>
    rw [hx] at h
    simp only [Except.ok.injEq, Prod.mk.injEq] at h
    obtain ⟨h1, h2⟩ := h
    subst h1; subst h2
    exact ⟨r.1, rfl⟩
  | error e => rw [hx] at h; exact absurd h (by simp)

/-- **C1**: for every accepted input graph the two outputs strictly
partition the input: the lengths add up, each output is an in-order
sublist of the input, and every factor's multiplicity in the input is the
sum of its multiplicities in the two outputs (so each input occurrence
lands in exactly one output). -/
theorem splitGraph_partition (g t c : List Factor)
    (h : splitGraph g = .ok (t, c)) :
    t.length + c.length = g.length ∧ t.Sublist g ∧ c.Sublist g ∧
      ∀ f, g.count f = t.count f + c.count f := by
  obtain ⟨d, hx⟩ := splitGraph_ok g t c h
  obtain ⟨dt, dc, ht, hc, hst, hsc, hlen, hcount, -, -⟩ :=
    splitAux_delta g _ _ _ _ _ _ hx
  simp only [List.nil_append] at ht hc
  subst ht; subst hc
  exact ⟨by omega, hst, hsc, hcount⟩

/-- Witness for C1 on the triangle graph. -/
theorem splitGraph_partition_witness :
    ([Factor.mk [1, 2], Factor.mk [2, 3]] : List Factor).length +
        ([Factor.mk [1, 3]] : List Factor).length =
        ([Factor.mk [1, 2], Factor.mk [2, 3], Factor.mk [1, 3]] : List Factor).length ∧
      List.Sublist [Factor.mk [1, 2], Factor.mk [2, 3]]
        [Factor.mk [1, 2], Factor.mk [2, 3], Factor.mk [1, 3]] ∧
      List.Sublist [Factor.mk [1, 3]]
        [Factor.mk [1, 2], Factor.mk [2, 3], Factor.mk [1, 3]] ∧
      ∀ f, List.count f [Factor.mk [1, 2], Factor.mk [2, 3], Factor.mk [1, 3]] =
        List.count f [Factor.mk [1, 2], Factor.mk [2, 3]] +
          List.count f [Factor.mk [1, 3]] :=
  splitGraph_partition [Factor.mk [1, 2], Factor.mk [2, 3], Factor.mk [1, 3]]
    [Factor.mk [1, 2], Factor.mk [2, 3]] [Factor.mk [1, 3]] (by decide)

/-- **C7**: every unary factor of the input is placed in the tree output,
never in the constraints output. -/
theorem splitGraph_unary_in_tree (g t c : List Factor)
    (h : splitGraph g = .ok (t, c)) :
    (∀ f ∈ g, f.keys.length = 1 → f ∈ t) ∧ ∀ f ∈ c, f.keys.length ≠ 1 := by
  obtain ⟨d, hx⟩ := splitGraph_ok g t c h
  obtain ⟨dt, dc, ht, hc, -, -, -, hcount, hdc, -⟩ :=
    splitAux_delta g _ _ _ _ _ _ hx
  simp only [List.nil_append] at ht hc
  subst ht; subst hc
  constructor
  · intro f hf h1
    by_contra hft
    have h0 : t.count f = 0 := List.count_eq_zero.mpr hft
    have hpos : 0 < g.count f := List.count_pos_iff.mpr hf
    have hfc : f ∈ c := by
      apply List.count_pos_iff.mp
      have := hcount f
      omega
    have := hdc f hfc
    omega
  · intro f hf
    rw [hdc f hf]
    omega

/-- Witness for C7 on a mixed unary/binary graph. -/
theorem splitGraph_unary_in_tree_witness :
    (∀ f ∈ ([Factor.mk [7], Factor.mk [1, 2], Factor.mk [1, 2]] : List Factor),
        f.keys.length = 1 → f ∈ ([Factor.mk [7], Factor.mk [1, 2]] : List Factor)) ∧
      ∀ f ∈ ([Factor.mk [1, 2]] : List Factor), f.keys.length ≠ 1 :=
  splitGraph_unary_in_tree [Factor.mk [7], Factor.mk [1, 2], Factor.mk [1, 2]]
    [Factor.mk [7], Factor.mk [1, 2]] [Factor.mk [1, 2]] (by decide)

/-- **C2**: a binary factor is placed in the tree output precisely when, in
the DSF state reached after the preceding factors, its endpoints have
different representatives; the two components are merged at that moment.
Otherwise it is appended to the constraints output and the DSF is
unchanged.  In both cases the placement persists in the final outputs for
any continuation of the input. -/
theorem splitGraph_binary_placement (pre : List Factor) (f : Factor) (a b : Key)
    (d : DSF) (tp cp : List Factor)
    (hk : f.keys = [a, b])
    (hpre : splitAux DSF.empty [] [] pre = .ok (d, tp, cp)) :
    (DSF.find d a ≠ DSF.find d b →
      splitAux DSF.empty [] [] (pre ++ [f]) = .ok (DSF.merge d a b, tp ++ [f], cp) ∧
      splitGraph (pre ++ [f]) = .ok (tp ++ [f], cp) ∧
      ∀ post t2 c2, splitGraph (pre ++ f :: post) = .ok (t2, c2) →
        ∃ rt rc, t2 = tp ++ f :: rt ∧ c2 = cp ++ rc) ∧
    (DSF.find d a = DSF.find d b →
      splitAux DSF.empty [] [] (pre ++ [f]) = .ok (d, tp, cp ++ [f]) ∧
      splitGraph (pre ++ [f]) = .ok (tp, cp ++ [f]) ∧
      ∀ post t2 c2, splitGraph (pre ++ f :: post) = .ok (t2, c2) →
        ∃ rt rc, t2 = tp ++ rt ∧ c2 = cp ++ f :: rc) := by
  have happ : splitAux DSF.empty [] [] (pre ++ [f]) = splitAux d tp cp [f] := by
    rw [splitAux_append, hpre]
  have hstep : splitAux d tp cp [f] =
      if DSF.find d a = DSF.find d b then Except.ok (d, tp, cp ++ [f])
      else Except.ok (DSF.merge d a b, tp ++ [f], cp) := by
    simp only [splitAux, hk]
    norm_num
  constructor
  · intro hne
    have h1 : splitAux DSF.empty [] [] (pre ++ [f]) =
        .ok (DSF.merge d a b, tp ++ [f], cp) := by
      rw [happ, hstep, if_neg hne]
    refine ⟨h1, by rw [splitGraph, h1], ?_⟩
    intro post t2 c2 h2
    obtain ⟨d2, hx2⟩ := splitGraph_ok _ _ _ h2
    have : pre ++ f :: post = (pre ++ [f]) ++ post := by simp
    rw [this, splitAux_append, h1] at hx2
    obtain ⟨rt, rc, hrt, hrc, -, -, -, -, -, -⟩ :=
      splitAux_delta post _ _ _ _ _ _ hx2
    exact ⟨rt, rc, by simp [hrt], hrc⟩
  · intro heq
    have h1 : splitAux DSF.empty [] [] (pre ++ [f]) = .ok (d, tp, cp ++ [f]) := by
      rw [happ, hstep, if_pos heq]
    refine ⟨h1, by rw [splitGraph, h1], ?_⟩
    intro post t2 c2 h2
    obtain ⟨d2, hx2⟩ := splitGraph_ok _ _ _ h2
    have : pre ++ f :: post = (pre ++ [f]) ++ post := by simp
    rw [this, splitAux_append, h1] at hx2
    obtain ⟨rt, rc, hrt, hrc, -, -, -, -, -, -⟩ :=
      splitAux_delta post _ _ _ _ _ _ hx2
    exact ⟨rt, rc, hrt, by simp [hrc]⟩

/-- Witness for C2: from the empty prefix, the first binary factor joins
two singleton components, goes to the tree, and the components merge. -/
theorem splitGraph_binary_placement_witness :
    splitAux DSF.empty [] [] ([] ++ [Factor.mk [0, 1]]) =
        .ok (DSF.merge DSF.empty 0 1, [] ++ [Factor.mk [0, 1]], []) ∧
      splitGraph ([] ++ [Factor.mk [0, 1]]) = .ok ([] ++ [Factor.mk [0, 1]], []) ∧
      ∀ post t2 c2, splitGraph ([] ++ Factor.mk [0, 1] :: post) = .ok (t2, c2) →
        ∃ rt rc, t2 = [] ++ Factor.mk [0, 1] :: rt ∧ c2 = [] ++ rc :=
  (splitGraph_binary_placement [] (Factor.mk [0, 1]) 0 1 DSF.empty [] []
    rfl rfl).1 (by decide)

/-- If some remaining factor has more than two keys, the loop can never
return successfully; if moreover no factor is empty, the failure is
exactly the malformed-factor error. -/
theorem splitAux_error_of_big (fs : List Factor) : ∀ d t c,
    (∃ f ∈ fs, 2 < f.keys.length) →
    (∃ e, splitAux d t c fs = .error e) ∧
      ((∀ f ∈ fs, f.keys.length ≠ 0) →
        splitAux d t c fs = .error SplitError.malformed) := by
  induction fs with
  | nil => intro d t c h; simp at h
  | cons f fs ih =>
    intro d t c h
    by_cases hf : 2 < f.keys.length
    · constructor
      · exact ⟨SplitError.malformed, by simp only [splitAux]; rw [if_pos hf]⟩
      · intro _; simp only [splitAux]; rw [if_pos hf]
    · have htail : ∃ g ∈ fs, 2 < g.keys.length := by
        rcases h with ⟨g, hg, hglen⟩
        rcases List.mem_cons.mp hg with rfl | hg
        · exact absurd hglen hf
        · exact ⟨g, hg, hglen⟩
      by_cases h1 : f.keys.length = 1
      · have step : ∀ x, splitAux d t c (f :: fs) = x ↔
            splitAux d (t ++ [f]) c fs = x := by
          intro x
          simp only [splitAux]
          rw [if_neg hf, if_pos h1]
      -- continue in the unary branch
        obtain ⟨⟨e, he⟩, hm⟩ := ih d (t ++ [f]) c htail
        refine ⟨⟨e, (step _).mpr he⟩, ?_⟩
        intro hz
        exact (step _).mpr (hm (fun g hg => hz g (List.mem_cons_of_mem f hg)))
      · match hkeys : f.keys, hf, h1 with
        | [], _, _ =>
          have hz : splitAux d t c (f :: fs) = .error SplitError.outOfBounds := by
            simp only [splitAux, hkeys]
            norm_num
          refine ⟨⟨SplitError.outOfBounds, hz⟩, ?_⟩
          intro hall
          exact absurd (by rw [hkeys]; rfl)
            (hall f (List.mem_cons_self f fs))
        | x :: y :: z :: rest, hf2, _ =>
          exact absurd (by simp only [List.length_cons]; omega) hf2
        | [a, b], _, _ =>
          have step : splitAux d t c (f :: fs) =
              if DSF.find d a = DSF.find d b then splitAux d t (c ++ [f]) fs
              else splitAux (DSF.merge d a b) (t ++ [f]) c fs := by
            simp only [splitAux, hkeys]
            norm_num
          by_cases hdd : DSF.find d a = DSF.find d b
          · rw [step, if_pos hdd]
            obtain ⟨⟨e, he⟩, hm⟩ := ih d t (c ++ [f]) htail
            exact ⟨⟨e, he⟩,
              fun hz => hm (fun g hg => hz g (List.mem_cons_of_mem f hg))⟩
          · rw [step, if_neg hdd]
            obtain ⟨⟨e, he⟩, hm⟩ := ih (DSF.merge d a b) (t ++ [f]) c htail
            exact ⟨⟨e, he⟩,
              fun hz => hm (fun g hg => hz g (List.mem_cons_of_mem f hg))⟩

/-- **C3** (counterexample): an arity-0 factor does not trigger the
malformed-factor error: the split fails with the out-of-bounds key access
instead, refuting the claim that arity 0 reports the malformed error. -/
theorem splitGraph_arity0_not_malformed :
    splitGraph [Factor.mk []] = .error SplitError.outOfBounds ∧
      SplitError.outOfBounds ≠ SplitError.malformed := by decide

/-- **C3** (amended): a graph containing a factor with more than two keys
never splits successfully, and when the graph has no arity-0 factor the
failure is exactly the malformed-factor error; in particular a graph with
a 3-key factor fails rather than producing outputs. -/
theorem splitGraph_arity_rejection (g : List Factor)
    (h3 : ∃ f ∈ g, 2 < f.keys.length) :
    (∃ e, splitGraph g = .error e) ∧
      ((∀ f ∈ g, f.keys.length ≠ 0) →
        splitGraph g = .error SplitError.malformed) := by
  obtain ⟨⟨e, he⟩, hm⟩ := splitAux_error_of_big g DSF.empty [] [] h3
  refine ⟨⟨e, ?_⟩, fun hz => ?_⟩
  · rw [splitGraph, he]
  · rw [splitGraph, hm hz]

/-- Witness for the amended C3 on a single ternary factor. -/
theorem splitGraph_arity_rejection_witness :
    (∃ e, splitGraph [Factor.mk [1, 2, 3]] = .error e) ∧
      ((∀ f ∈ ([Factor.mk [1, 2, 3]] : List Factor), f.keys.length ≠ 0) →
        splitGraph [Factor.mk [1, 2, 3]] = .error SplitError.malformed) :=
  splitGraph_arity_rejection [Factor.mk [1, 2, 3]]
    ⟨Factor.mk [1, 2, 3], by decide, by decide⟩

/-- **C10**: the only arity guard is `keys.size() > 2`; a factor with zero
keys passes that guard, is not unary, and falls into the binary branch
where the reads `keys[0]` and `keys[1]` index an empty list: under the
total embedding the split aborts with the out-of-bounds error (not the
malformed-factor error) as soon as such a factor is reached. -/
theorem splitGraph_arity0_out_of_bounds (pre : List Factor) (f : Factor)
    (post : List Factor) (d : DSF) (tp cp : List Factor)
    (hk : f.keys = [])
    (hpre : splitAux DSF.empty [] [] pre = .ok (d, tp, cp)) :
    splitGraph (pre ++ f :: post) = .error SplitError.outOfBounds := by
  have happ : splitAux DSF.empty [] [] (pre ++ f :: post) =
      splitAux d tp cp (f :: post) := by
    rw [splitAux_append, hpre]
  have hstep : splitAux d tp cp (f :: post) = .error SplitError.outOfBounds := by
    simp only [splitAux, hk]
    norm_num
  rw [splitGraph, happ, hstep]

/-- Witness for C10: an arity-0 factor after a well-formed prefix. -/
theorem splitGraph_arity0_out_of_bounds_witness :
    splitGraph ([Factor.mk [4]] ++ Factor.mk [] :: [Factor.mk [1, 2]]) =
      .error SplitError.outOfBounds :=
  splitGraph_arity0_out_of_bounds [Factor.mk [4]] (Factor.mk [])
    [Factor.mk [1, 2]] DSF.empty [Factor.mk [4]] [] rfl rfl

/-- Modelled from the spec: a variable assignment (`VectorValues`), a
mapping from variable identifiers to numeric values; the model uses one
rational coordinate per variable.  `VectorValues` itself is an external
dependency of this file; only the operations the solver uses are given. -/
abbrev VectorValues := List (Key × ℚ)

/-- Value of key `k` in an assignment, zero when absent. -/
def lookup0 (m : VectorValues) (k : Key) : ℚ :=
  match m.find? (fun p => p.1 == k) with
  | some p => p.2
  | none => 0

/-- Modelled from the spec: one conditional of a triangular factorization,
expressing its variable as an affine function of variables ordered after
it. -/
structure Conditional where
  key : Key
  coeffs : List (Key × ℚ)
  rhs : ℚ
deriving DecidableEq, Repr

/-- Modelled from the spec: the Triangular Factorization (Bayes net
analogue) produced by the external Eliminator: an ordered sequence of
per-variable conditional relations. -/
abbrev GaussianBayesNet := List Conditional

/-- Modelled from the spec: `Rc1->optimize()` — back-substitution through
the factorization from the last conditional to the first, yielding the
exact solution of the tree system. -/
def bnSolve (bn : GaussianBayesNet) : VectorValues :=
  bn.foldr (fun cd acc =>
    (cd.key, cd.rhs + (cd.coeffs.map (fun q => q.2 * lookup0 acc q.1)).sum) :: acc) []

/-- A solver-internal (y-space) vector: one entry per conditional of the
tree factorization, in elimination order. -/
abbrev Vec := List ℚ

/-- Modelled from the spec: `R.applyInverseOperator(y)` — back-substitution
of a y-space right-hand side through the triangular factorization (the
linear part of `bnSolve`, with `y` in place of the constants). -/
def bnApplyInv : GaussianBayesNet → Vec → VectorValues
  | [], _ => []
  | cd :: bn, y =>
    (cd.key, y.headD 0 +
        (cd.coeffs.map (fun q => q.2 * lookup0 (bnApplyInv bn (y.drop 1)) q.1)).sum) ::
      bnApplyInv bn (y.drop 1)

/-- Modelled from the spec: the transpose operator of the factorization,
pulling an x-space gradient back into y-space, one coordinate per
conditional. -/
def bnApplyT (bn : GaussianBayesNet) (gx : VectorValues) : Vec :=
  bn.map (fun cd =>
    lookup0 gx cd.key + (cd.coeffs.map (fun q => q.2 * lookup0 gx q.1)).sum)

/-- Modelled from the spec: the `SubgraphPreconditioner` state: constraints
graph `Ab2`, tree factorization `Rc1`, baseline solution `xbar`. -/
structure SubgraphPreconditioner where
  Ab2 : List Factor
  Rc1 : GaussianBayesNet
  xbar : VectorValues
deriving DecidableEq, Repr

/-- Modelled from the spec: `pc->zero()`, the all-zero y-space vector (one
entry per variable covered by the factorization). -/
def SubgraphPreconditioner.zero (pc : SubgraphPreconditioner) : Vec :=
  List.replicate pc.Rc1.length 0

/-- Pointwise sum of two assignments over the support of the first. -/
def vvAdd (u v : VectorValues) : VectorValues :=
  u.map (fun p => (p.1, p.2 + lookup0 v p.1))

/-- Modelled from the spec: `pc->x(y) = xbar + R.applyInverseOperator(y)`,
the transform from a y-space perturbation to an x-space assignment. -/
def SubgraphPreconditioner.x (pc : SubgraphPreconditioner) (y : Vec) : VectorValues :=
  vvAdd pc.xbar (bnApplyInv pc.Rc1 y)

/-- Sum of two assignments over the union of their supports. -/
def vvMerge (u v : VectorValues) : VectorValues :=
  vvAdd u v ++ v.filter (fun p => (u.find? (fun q => q.1 == p.1)).isNone)

/-- Modelled from the spec: the gradient contribution of a factor graph at
an x-space assignment.  The per-factor term is a parameter (the numeric
payload of Gaussian factors lives outside the inspected core); the empty
graph contributes nothing. -/
def graphGrad (fgrad : Factor → VectorValues → VectorValues) :
    List Factor → VectorValues → VectorValues
  | [], _ => []
  | f :: fs, xv => vvMerge (fgrad f xv) (graphGrad fgrad fs xv)

/-- Modelled from the spec: the y-space residual at `y`: the constraints
contribution evaluated at `x(y)`, pulled back via the transpose operator
(the tree contribution collapses by construction). -/
def SubgraphPreconditioner.residual (pc : SubgraphPreconditioner)
    (fgrad : Factor → VectorValues → VectorValues) (y : Vec) : Vec :=
  bnApplyT pc.Rc1 (graphGrad fgrad pc.Ab2 (pc.x y))

/-- Modelled from the spec: CG configuration: tolerance and iteration
cap (verbosity has no effect on numerics and is omitted). -/
structure ConjugateGradientParameters where
  tolerance : ℚ
  maxIterations : Nat
deriving DecidableEq, Repr

def vAdd (u v : Vec) : Vec := List.zipWith (· + ·) u v

def vSub (u v : Vec) : Vec := List.zipWith (· - ·) u v

def vScale (a : ℚ) (v : Vec) : Vec := v.map (a * ·)

def vNeg (v : Vec) : Vec := v.map (fun q => -q)

def vDot (u v : Vec) : ℚ := (List.zipWith (· * ·) u v).sum

def vNormSq (v : Vec) : ℚ := vDot v v

/-- Modelled from the spec: the preconditioned CG recurrence in y-space;
`op` is the implicit linear operator application.  The loop stops when the
squared residual norm falls below the squared tolerance or the iteration
budget runs out, whichever first; reaching the cap is silently accepted. -/
def cgLoop (op : Vec → Vec) (tol : ℚ) : Nat → Vec → Vec → Vec → Vec
  | 0, y, _, _ => y
  | Nat.succ n, y, r, p =>
    if vNormSq r ≤ tol * tol then y
    else
      cgLoop op tol n
        (vAdd y (vScale (vDot r r / vDot p (op p)) p))
        (vSub r (vScale (vDot r r / vDot p (op p)) (op p)))
        (vAdd (vSub r (vScale (vDot r r / vDot p (op p)) (op p)))
          (vScale (vNormSq (vSub r (vScale (vDot r r / vDot p (op p)) (op p))) / vDot r r) p))

/-- Modelled from the spec: `conjugateGradients` started at `y₀` with
`r₀ = −residual(y₀)` and `p₀ = r₀`. -/
def conjugateGradients (op : Vec → Vec) (res : Vec → Vec)
    (params : ConjugateGradientParameters) (y0 : Vec) : Vec :=
  cgLoop op params.tolerance params.maxIterations y0 (vNeg (res y0)) (vNeg (res y0))

/-- `SubgraphSolver::initialize(gfg)` (lines 99-114): split the graph,
eliminate the tree part through the external eliminator `elim` (standing
for `eliminateSequential(ordering, EliminateQR)`), compute the baseline by
back-substitution, and build the preconditioner. -/
def initializeSolver (elim : List Factor → List Key → GaussianBayesNet)
    (ordering : List Key) (g : List Factor) :
    Except SplitError SubgraphPreconditioner :=
  match splitGraph g with
  | .ok r => .ok ⟨r.2, elim r.1 ordering, bnSolve (elim r.1 ordering)⟩
  | .error e => .error e

/-- `SubgraphSolver::optimize()` (lines 86-90): run CG from `pc->zero()`
and map the final y-space iterate back to x-space. -/
def optimize (fgrad : Factor → VectorValues → VectorValues) (op : Vec → Vec)
    (pc : SubgraphPreconditioner) (params : ConjugateGradientParameters) :
    VectorValues :=
  pc.x (conjugateGradients op (pc.residual fgrad) params pc.zero)

/-- `SubgraphSolver::optimize(const VectorValues&)` (lines 93-96): the
body ignores the supplied initial assignment and calls `optimize()`. -/
def optimizeWithInitial (fgrad : Factor → VectorValues → VectorValues)
    (op : Vec → Vec) (pc : SubgraphPreconditioner)
    (params : ConjugateGradientParameters) (initial : VectorValues) :
    VectorValues :=
  optimize fgrad op pc params

/-- Modelled from the spec: the auxiliary per-key curvature information
(`KeyInfo`) taken by the stub overload; it is never inspected. -/
abbrev KeyInfo := List (Key × Nat)

/-- The overload `optimize(gfg, keyInfo, lambda, initial)` (lines 166-170):
an explicit not-implemented stub whose body is `return VectorValues()`. -/
def optimizeStub (gfg : List Factor) (keyInfo : KeyInfo)
    (lambda : List (Key × ℚ)) (initial : VectorValues) : VectorValues :=
  []

/-- **C4**: for every initial assignment, the warm-start overload returns
exactly the result of `optimize()` on the same solver state: the initial
assignment is ignored and no warm start is applied. -/
theorem optimize_ignores_initial (fgrad : Factor → VectorValues → VectorValues)
    (op : Vec → Vec) (pc : SubgraphPreconditioner)
    (params : ConjugateGradientParameters) (initial : VectorValues) :
    optimizeWithInitial fgrad op pc params initial = optimize fgrad op pc params :=
  rfl

/-- **C5**: the auxiliary-curvature overload returns the empty assignment
for every combination of inputs. -/
theorem optimizeStub_empty (gfg : List Factor) (keyInfo : KeyInfo)
    (lambda : List (Key × ℚ)) (initial : VectorValues) :
    optimizeStub gfg keyInfo lambda initial = [] :=
  rfl

/-- **C9**: determinism: the embedded solver operations are pure, so equal
inputs and equal solver state give equal outputs of `splitGraph` and of
`optimize` (with or without the ignored warm start). -/
theorem solver_deterministic (g1 g2 : List Factor)
    (fgrad : Factor → VectorValues → VectorValues) (op : Vec → Vec)
    (pc : SubgraphPreconditioner) (params : ConjugateGradientParameters)
    (initial1 initial2 : VectorValues)
    (hg : g1 = g2) (hi : initial1 = initial2) :
    splitGraph g1 = splitGraph g2 ∧
      optimizeWithInitial fgrad op pc params initial1 =
        optimizeWithInitial fgrad op pc params initial2 := by
  rw [hg, hi]
  exact ⟨rfl, rfl⟩

/-- Witness for C9 at a concrete graph and solver state. -/
theorem solver_deterministic_witness :
    splitGraph [Factor.mk [1, 2]] = splitGraph [Factor.mk [1, 2]] ∧
      optimizeWithInitial (fun _ _ => []) id ⟨[], [], []⟩ ⟨1, 1⟩ [] =
        optimizeWithInitial (fun _ _ => []) id ⟨[], [], []⟩ ⟨1, 1⟩ [] :=
  solver_deterministic [Factor.mk [1, 2]] [Factor.mk [1, 2]]
    (fun _ _ => []) id ⟨[], [], []⟩ ⟨1, 1⟩ [] [] rfl rfl

/-- Looking up any key in an assignment whose values are all zero gives
zero. -/
theorem lookup0_zero (m : VectorValues) (hm : ∀ p ∈ m, p.2 = 0) (k : Key) :
    lookup0 m k = 0 := by
  unfold lookup0
  cases hf : m.find? (fun p => p.1 == k) with
  | none => rfl
  | some p => exact hm p (List.mem_of_find?_eq_some hf)

/-- Back-substitution of an all-zero right-hand side produces an all-zero
assignment. -/
theorem bnApplyInv_zero (bn : GaussianBayesNet) : ∀ y : Vec,
    (∀ q ∈ y, q = 0) → ∀ p ∈ bnApplyInv bn y, p.2 = 0 := by
  induction bn with
  | nil => intro y hy p hp; simp [bnApplyInv] at hp
  | cons cd bn ih =>
    intro y hy p hp
    have hdrop : ∀ q ∈ y.drop 1, q = 0 :=
      fun q hq => hy q (List.mem_of_mem_drop hq)
    rcases List.mem_cons.mp hp with rfl | hp
    · have h1 : y.headD 0 = 0 := by
        cases y with
        | nil => rfl
        | cons q ys => exact hy q (List.mem_cons_self _ _)
      have h2 : (cd.coeffs.map
          (fun q => q.2 * lookup0 (bnApplyInv bn (y.drop 1)) q.1)).sum = 0 := by
        apply List.sum_eq_zero
        intro z hz
        obtain ⟨q, hq, rfl⟩ := List.mem_map.mp hz
        rw [lookup0_zero _ (ih (y.drop 1) hdrop), mul_zero]
      show List.headD y 0 +
          (cd.coeffs.map (fun q => q.2 * lookup0 (bnApplyInv bn (y.drop 1)) q.1)).sum = 0
      rw [h1, h2, add_zero]
    · exact ih (y.drop 1) hdrop p hp

/-- Adding an all-zero assignment changes nothing. -/
theorem vvAdd_zero (u v : VectorValues) (hv : ∀ p ∈ v, p.2 = 0) :
    vvAdd u v = u := by
  unfold vvAdd
  conv_rhs => rw [← List.map_id u]
  apply List.map_congr_left
  intro p _
  rw [lookup0_zero v hv, add_zero, Prod.mk.eta]
  rfl

/-- Transform round-trip: `x(zero()) = xbar`. -/
theorem pcX_zero (pc : SubgraphPreconditioner) : pc.x pc.zero = pc.xbar := by
  unfold SubgraphPreconditioner.x SubgraphPreconditioner.zero
  exact vvAdd_zero _ _
    (bnApplyInv_zero _ _ (fun q hq => List.eq_of_mem_replicate hq))

/-- With an empty constraints graph the y-space residual vanishes at every
point. -/
theorem residual_empty (pc : SubgraphPreconditioner)
    (fgrad : Factor → VectorValues → VectorValues)
    (h : pc.Ab2 = []) (y : Vec) :
    ∀ q ∈ pc.residual fgrad y, q = 0 := by
  unfold SubgraphPreconditioner.residual
  rw [h]
  intro q hq
  simp only [graphGrad, bnApplyT] at hq
  obtain ⟨cd, -, rfl⟩ := List.mem_map.mp hq
  have hz : ∀ k, lookup0 ([] : VectorValues) k = 0 := fun _ => rfl
  rw [hz]
  rw [List.sum_eq_zero, add_zero]
  intro z hzz
  obtain ⟨q, -, rfl⟩ := List.mem_map.mp hzz
  rw [hz, mul_zero]

/-- The squared norm of an all-zero vector is zero. -/
theorem vNormSq_zero (v : Vec) (hv : ∀ q ∈ v, q = 0) : vNormSq v = 0 := by
  induction v with
  | nil => rfl
  | cons q v ih =>
    have hq : q = 0 := hv q (List.mem_cons_self _ _)
    have hrest := ih (fun z hz => hv z (List.mem_cons_of_mem _ hz))
    simp only [vNormSq, vDot, List.zipWith_cons_cons, List.sum_cons] at hrest ⊢
    rw [hq, hrest, mul_zero, add_zero]

/-- CG started where the residual already vanishes returns its starting
point: either the iteration budget is zero, or the stopping test succeeds
immediately. -/
theorem conjugateGradients_zero_residual (op : Vec → Vec) (res : Vec → Vec)
    (params : ConjugateGradientParameters) (y0 : Vec)
    (h : ∀ q ∈ res y0, q = 0) :
    conjugateGradients op res params y0 = y0 := by
  have hz : vNormSq (vNeg (res y0)) = 0 := by
    apply vNormSq_zero
    intro q hq
    obtain ⟨z, hzz, rfl⟩ := List.mem_map.mp hq
    rw [h z hzz, neg_zero]
  unfold conjugateGradients
  cases hn : params.maxIterations with
  | zero => rfl
  | succ n =>
    simp only [cgLoop]
    rw [if_pos]
    rw [hz]
    exact mul_self_nonneg _

/-- **C8**: when the constraints graph produced by splitting is empty,
`optimize()` returns exactly the baseline assignment `xbar` obtained by
direct elimination of the tree subgraph: the y-space residual at zero
already vanishes, CG takes no step, and `x(zero()) = xbar`. -/
theorem optimize_empty_constraints
    (elim : List Factor → List Key → GaussianBayesNet) (ordering : List Key)
    (g t : List Factor) (fgrad : Factor → VectorValues → VectorValues)
    (op : Vec → Vec) (params : ConjugateGradientParameters)
    (pc : SubgraphPreconditioner)
    (hsplit : splitGraph g = .ok (t, []))
    (hinit : initializeSolver elim ordering g = .ok pc) :
    optimize fgrad op pc params = bnSolve (elim t ordering) := by
  unfold initializeSolver at hinit
  rw [hsplit] at hinit
  simp only [Except.ok.injEq] at hinit
  subst hinit
  unfold optimize
  rw [conjugateGradients_zero_residual _ _ _ _ (residual_empty _ fgrad rfl _)]
  exact pcX_zero _

/-- Witness for C8: a single unary factor, eliminated into a single
conditional with solution 3. -/
theorem optimize_empty_constraints_witness :
    splitGraph [Factor.mk [5]] = .ok ([Factor.mk [5]], []) ∧
      optimize (fun _ _ => []) id
          ⟨[], [Conditional.mk 5 [] 3], bnSolve [Conditional.mk 5 [] 3]⟩ ⟨1, 5⟩ =
        bnSolve [Conditional.mk 5 [] 3] :=
  ⟨by decide,
    optimize_empty_constraints (fun _ _ => [Conditional.mk 5 [] 3]) [5]
      [Factor.mk [5]] [Factor.mk [5]] (fun _ _ => []) id ⟨1, 5⟩
      ⟨[], [Conditional.mk 5 [] 3], bnSolve [Conditional.mk 5 [] 3]⟩
      (by decide) rfl⟩

/-- The endpoints of a binary factor, if any: the edge it induces on the
variable-connectivity graph. -/
def factorEdge (f : Factor) : Option (Key × Key) :=
  match f.keys with
  | [a, b] => some (a, b)
  | _ => none

/-- Remove the group containing `x` from a list of key groups, returning
the remaining groups and `x`'s group (a fresh singleton when `x` occurs in
no group). -/
def removeComp : List (List Key) → Key → List (List Key) × List Key
  | [], x => ([], [x])
  | C :: rest, x =>
    if x ∈ C then (rest, C)
    else (C :: (removeComp rest x).1, (removeComp rest x).2)

/-- Following the spec's words: connected components of the binary-factor
graph, maintained as a list of key groups.  Adding the edge `(a, b)`
merges the groups of its endpoints (unseen endpoints enter as fresh
singletons); a self-loop or an edge inside one group leaves the grouping
unchanged up to order. -/
def addEdgeComps (comps : List (List Key)) (a b : Key) : List (List Key) :=
  if b ∈ (removeComp comps a).2 then
    (removeComp comps a).1 ++ [(removeComp comps a).2]
  else
    (removeComp (removeComp comps a).1 b).1 ++
      [(removeComp comps a).2 ++ (removeComp (removeComp comps a).1 b).2]

/-- One step of the component computation: binary factors contribute their
edge, other factors contribute nothing. -/
def compStep (comps : List (List Key)) (f : Factor) : List (List Key) :=
  match factorEdge f with
  | some e => addEdgeComps comps e.1 e.2
  | none => comps

/-- Following the spec's words: the connected components of the graph on
variables whose edges are the binary factors of `g`, in input order. -/
def componentsOf (g : List Factor) : List (List Key) :=
  g.foldl compStep []

/-- The number of connected components of the binary-factor graph. -/
def numComponents (g : List Factor) : Nat := (componentsOf g).length

/-- The set of variables touched by the binary factors of `g`. -/
def binTouched (g : List Factor) : Finset Key :=
  g.foldr (fun f s =>
    match factorEdge f with
    | some e => insert e.1 (insert e.2 s)
    | none => s) ∅

/-- The number of binary factors in a factor list. -/
def countBin (l : List Factor) : Nat := l.countP (fun f => f.keys.length == 2)

/-- `x` occurs in some group of `comps`. -/
def covered (comps : List (List Key)) (x : Key) : Prop := ∃ C ∈ comps, x ∈ C

/-- `x` and `y` occur in a common group of `comps`. -/
def sameComp (comps : List (List Key)) (x y : Key) : Prop :=
  ∃ C ∈ comps, x ∈ C ∧ y ∈ C

/-- All keys occurring in some group of `comps`, as a finite set. -/
def coveredSet (comps : List (List Key)) : Finset Key :=
  comps.foldr (fun C s => C.toFinset ∪ s) ∅

/-- The invariant tying the DSF state of the splitter loop to the
component grouping of the binary edges processed so far: groups are
disjoint and nonempty, representatives stay inside the grouping,
find-equality coincides with being in a common group, and unseen keys are
their own representatives. -/
structure CompInv (d : DSF) (comps : List (List Key)) : Prop where
  disj : comps.Pairwise (fun C D => ∀ x ∈ C, x ∉ D)
  nonempty : ∀ C ∈ comps, C ≠ []
  rep_cov : ∀ x, covered comps x → covered comps (d x)
  same_iff : ∀ x y, covered comps x → covered comps y →
    (d x = d y ↔ sameComp comps x y)
  out_id : ∀ x, ¬ covered comps x → d x = x

theorem covered_nil (x : Key) : ¬ covered [] x := by
  rintro ⟨C, hC, -⟩
  simp at hC

theorem covered_cons (C : List Key) (rest : List (List Key)) (x : Key) :
    covered (C :: rest) x ↔ x ∈ C ∨ covered rest x := by
  constructor
  · rintro ⟨D, hD, hx⟩
    rcases List.mem_cons.mp hD with rfl | hD
    · exact Or.inl hx
    · exact Or.inr ⟨D, hD, hx⟩
  · rintro (hx | ⟨D, hD, hx⟩)
    · exact ⟨C, List.mem_cons_self _ _, hx⟩
    · exact ⟨D, List.mem_cons_of_mem _ hD, hx⟩

theorem covered_append (l1 l2 : List (List Key)) (x : Key) :
    covered (l1 ++ l2) x ↔ covered l1 x ∨ covered l2 x := by
  constructor
  · rintro ⟨C, hC, hx⟩
    rcases List.mem_append.mp hC with hC | hC
    · exact Or.inl ⟨C, hC, hx⟩
    · exact Or.inr ⟨C, hC, hx⟩
  · rintro (⟨C, hC, hx⟩ | ⟨C, hC, hx⟩)
    · exact ⟨C, List.mem_append.mpr (Or.inl hC), hx⟩
    · exact ⟨C, List.mem_append.mpr (Or.inr hC), hx⟩

theorem covered_singleton (C : List Key) (x : Key) :
    covered [C] x ↔ x ∈ C := by
  rw [covered_cons]
  constructor
  · rintro (h | h)
    · exact h
    · exact absurd h (covered_nil x)
  · exact Or.inl

theorem mem_coveredSet (comps : List (List Key)) (x : Key) :
    x ∈ coveredSet comps ↔ covered comps x := by
  induction comps with
  | nil => simp [coveredSet]; exact covered_nil x
  | cons C rest ih =>
    simp only [coveredSet, List.foldr_cons] at ih ⊢
    rw [Finset.mem_union, List.mem_toFinset, ih, covered_cons]

theorem sameComp_append_singleton (l : List (List Key)) (CC : List Key)
    (x y : Key) :
    sameComp (l ++ [CC]) x y ↔ sameComp l x y ∨ (x ∈ CC ∧ y ∈ CC) := by
  constructor
  · rintro ⟨D, hD, hx, hy⟩
    rcases List.mem_append.mp hD with hD | hD
    · exact Or.inl ⟨D, hD, hx, hy⟩
    · rcases List.mem_cons.mp hD with rfl | hD
      · exact Or.inr ⟨hx, hy⟩
      · simp at hD
  · rintro (⟨D, hD, hx, hy⟩ | ⟨hx, hy⟩)
    · exact ⟨D, List.mem_append.mpr (Or.inl hD), hx, hy⟩
    · exact ⟨CC, List.mem_append.mpr (Or.inr (List.mem_cons_self _ _)), hx, hy⟩

theorem removeComp_mem_snd (comps : List (List Key)) (x : Key) :
    x ∈ (removeComp comps x).2 := by
  induction comps with
  | nil => simp [removeComp]
  | cons C rest ih =>
    simp only [removeComp]
    split
    · rename_i h; exact h
    · exact ih

theorem removeComp_sublist (comps : List (List Key)) (x : Key) :
    (removeComp comps x).1.Sublist comps := by
  induction comps with
  | nil => simp [removeComp]
  | cons C rest ih =>
    simp only [removeComp]
    split
    · exact List.sublist_cons_self _ _
    · exact List.Sublist.cons₂ _ ih

theorem removeComp_not_covered (comps : List (List Key)) (x : Key)
    (h : ¬ covered comps x) : removeComp comps x = (comps, [x]) := by
  induction comps with
  | nil => rfl
  | cons C rest ih =>
    have hx : x ∉ C := fun hx => h ((covered_cons _ _ _).mpr (Or.inl hx))
    have hr : ¬ covered rest x := fun hr => h ((covered_cons _ _ _).mpr (Or.inr hr))
    simp only [removeComp, if_neg hx, ih hr]

/-- Coverage decomposition of `removeComp`, valid without disjointness:
the removed group and the rest together cover exactly the old keys plus
`x`. -/
theorem removeComp_cov_union (comps : List (List Key)) (x : Key) (y : Key) :
    (covered (removeComp comps x).1 y ∨ y ∈ (removeComp comps x).2) ↔
      (covered comps y ∨ y = x) := by
  induction comps with
  | nil =>
    simp only [removeComp]
    constructor
    · rintro (h | h)
      · exact absurd h (covered_nil y)
      · simp at h; exact Or.inr h
    · rintro (h | rfl)
      · exact absurd h (covered_nil y)
      · exact Or.inr (List.mem_cons_self _ _)
  | cons C rest ih =>
    simp only [removeComp]
    split
    · rename_i hx
      constructor
      · rintro (h | h)
        · exact Or.inl ((covered_cons _ _ _).mpr (Or.inr h))
        · exact Or.inl ((covered_cons _ _ _).mpr (Or.inl h))
      · rintro (h | rfl)
        · rcases (covered_cons _ _ _).mp h with h | h
          · exact Or.inr h
          · exact Or.inl h
        · exact Or.inr hx
    · rename_i hx
      constructor
      · rintro (h | h)
        · rcases (covered_cons _ _ _).mp h with h | h
          · exact Or.inl ((covered_cons _ _ _).mpr (Or.inl h))
          · rcases ih.mp (Or.inl h) with h | h
            · exact Or.inl ((covered_cons _ _ _).mpr (Or.inr h))
            · exact Or.inr h
        · rcases ih.mp (Or.inr h) with h | h
          · exact Or.inl ((covered_cons _ _ _).mpr (Or.inr h))
          · exact Or.inr h
      · rintro (h | rfl)
        · rcases (covered_cons _ _ _).mp h with h | h
          · exact Or.inl ((covered_cons _ _ _).mpr (Or.inl h))
          · rcases ih.mpr (Or.inl h) with h | h
            · exact Or.inl ((covered_cons _ _ _).mpr (Or.inr h))
            · exact Or.inr h
        · rcases ih.mpr (Or.inr rfl) with h | h
          · exact Or.inl ((covered_cons _ _ _).mpr (Or.inr h))
          · exact Or.inr h

/-- In a pairwise-disjoint grouping, a key determines its group. -/
theorem disj_unique : ∀ (comps : List (List Key)),
    comps.Pairwise (fun C D => ∀ y ∈ C, y ∉ D) →
    ∀ C D, C ∈ comps → D ∈ comps → ∀ x, x ∈ C → x ∈ D → C = D := by
  intro comps
  induction comps with
  | nil => intro _ C D hC; simp at hC
  | cons E rest ih =>
    intro hd C D hC hD x hxC hxD
    rw [List.pairwise_cons] at hd
    rcases List.mem_cons.mp hC with rfl | hC2
    · rcases List.mem_cons.mp hD with rfl | hD2
      · rfl
      · exact absurd hxD (hd.1 D hD2 x hxC)
    · rcases List.mem_cons.mp hD with rfl | hD2
      · exact absurd hxC (hd.1 C hC2 x hxD)
      · exact ih hd.2 C D hC2 hD2 x hxC hxD

/-- Structure of `removeComp` on a covered key, under disjointness: the
removed group is one of the groups, the length drops by one, the kept
groups are original groups, and they avoid the removed group. -/
theorem removeComp_covered : ∀ (comps : List (List Key)) (x : Key),
    comps.Pairwise (fun C D => ∀ y ∈ C, y ∉ D) →
    covered comps x →
    (removeComp comps x).2 ∈ comps ∧
      comps.length = (removeComp comps x).1.length + 1 ∧
      (∀ C ∈ (removeComp comps x).1, C ∈ comps) ∧
      (∀ C ∈ (removeComp comps x).1, ∀ y ∈ C, y ∉ (removeComp comps x).2) := by
  intro comps
  induction comps with
  | nil => intro x _ hcov; exact absurd hcov (covered_nil x)
  | cons C rest ih =>
    intro x hd hcov
    rw [List.pairwise_cons] at hd
    by_cases hx : x ∈ C
    · simp only [removeComp, if_pos hx]
      refine ⟨List.mem_cons_self _ _, rfl, ?_, ?_⟩
      · exact fun D hD => List.mem_cons_of_mem _ hD
      · intro D hD y hyD hyC
        exact hd.1 D hD y hyC hyD
    · have hcovr : covered rest x := by
        rcases (covered_cons _ _ _).mp hcov with h | h
        · exact absurd h hx
        · exact h
      obtain ⟨h1, h2, h3, h4⟩ := ih x hd.2 hcovr
      simp only [removeComp, if_neg hx]
      refine ⟨List.mem_cons_of_mem _ h1, ?_, ?_, ?_⟩
      · simp only [List.length_cons]; omega
      · intro D hD
        rcases List.mem_cons.mp hD with rfl | hD
        · exact List.mem_cons_self _ _
        · exact List.mem_cons_of_mem _ (h3 D hD)
      · intro D hD y hyD hysnd
        rcases List.mem_cons.mp hD with rfl | hD
        · exact hd.1 _ h1 y hyD hysnd
        · exact h4 D hD y hyD hysnd

/-- On a covered key, membership in the removed group characterises being
grouped with that key. -/
theorem removeComp_same (comps : List (List Key)) (x : Key)
    (hd : comps.Pairwise (fun C D => ∀ y ∈ C, y ∉ D))
    (hcov : covered comps x) :
    ∀ y, sameComp comps x y ↔ y ∈ (removeComp comps x).2 := by
  intro y
  obtain ⟨hsnd, -, -, -⟩ := removeComp_covered comps x hd hcov
  constructor
  · rintro ⟨D, hD, hxD, hyD⟩
    have hDsnd : D = (removeComp comps x).2 :=
      disj_unique comps hd D _ hD hsnd x hxD (removeComp_mem_snd comps x)
    exact hDsnd ▸ hyD
  · intro hy
    exact ⟨_, hsnd, removeComp_mem_snd comps x, hy⟩

/-- Removing and re-appending a covered key's group permutes the grouping. -/
theorem removeComp_perm : ∀ (comps : List (List Key)) (x : Key),
    covered comps x →
    comps.Perm ((removeComp comps x).1 ++ [(removeComp comps x).2]) := by
  intro comps
  induction comps with
  | nil => intro x h; exact absurd h (covered_nil x)
  | cons C rest ih =>
    intro x hcov
    by_cases hx : x ∈ C
    · simp only [removeComp, if_pos hx]
      exact (List.perm_append_singleton _ _).symm
    · have hcovr : covered rest x := by
        rcases (covered_cons _ _ _).mp hcov with h | h
        · exact absurd h hx
        · exact h
      simp only [removeComp, if_neg hx]
      exact (ih x hcovr).cons C

theorem covered_of_perm (comps1 comps2 : List (List Key))
    (h : comps1.Perm comps2) (x : Key) :
    covered comps1 x ↔ covered comps2 x := by
  constructor <;> rintro ⟨C, hC, hx⟩
  · exact ⟨C, h.mem_iff.mp hC, hx⟩
  · exact ⟨C, h.mem_iff.mpr hC, hx⟩

theorem sameComp_of_perm (comps1 comps2 : List (List Key))
    (h : comps1.Perm comps2) (x y : Key) :
    sameComp comps1 x y ↔ sameComp comps2 x y := by
  constructor <;> rintro ⟨C, hC, hx, hy⟩
  · exact ⟨C, h.mem_iff.mp hC, hx, hy⟩
  · exact ⟨C, h.mem_iff.mpr hC, hx, hy⟩

/-- The invariant only depends on the grouping up to permutation. -/
theorem CompInv_of_perm (d : DSF) (comps1 comps2 : List (List Key))
    (h : comps1.Perm comps2) (hi : CompInv d comps1) : CompInv d comps2 where
  disj := hi.disj.perm h (fun hCD x hxD hxC => hCD x hxC hxD)
  nonempty := fun C hC => hi.nonempty C (h.mem_iff.mpr hC)
  rep_cov := fun x hx =>
    (covered_of_perm _ _ h _).mp (hi.rep_cov x ((covered_of_perm _ _ h x).mpr hx))
  same_iff := fun x y hx hy => by
    rw [← sameComp_of_perm _ _ h]
    exact hi.same_iff x y ((covered_of_perm _ _ h x).mpr hx)
      ((covered_of_perm _ _ h y).mpr hy)
  out_id := fun x hx => hi.out_id x (fun hc => hx ((covered_of_perm _ _ h x).mp hc))

/-- Coverage after adding an edge: the old keys plus the two endpoints
(valid without any disjointness assumption). -/
theorem covered_addEdge (comps : List (List Key)) (a b : Key) (y : Key) :
    covered (addEdgeComps comps a b) y ↔ covered comps y ∨ y = a ∨ y = b := by
  unfold addEdgeComps
  split
  · rename_i hb2
    rw [covered_append, covered_singleton, removeComp_cov_union]
    constructor
    · rintro (h | rfl)
      · exact Or.inl h
      · exact Or.inr (Or.inl rfl)
    · rintro (h | rfl | rfl)
      · exact Or.inl h
      · exact Or.inr rfl
      · rcases (removeComp_cov_union comps a y).mp (Or.inr hb2) with h | h
        · exact Or.inl h
        · exact Or.inr h
  · rename_i hb2
    have h1 := fun z => removeComp_cov_union comps a z
    have h2 := fun z => removeComp_cov_union (removeComp comps a).1 b z
    rw [covered_append, covered_singleton, List.mem_append]
    constructor
    · rintro (h | h | h)
      · rcases (h2 y).mp (Or.inl h) with h | rfl
        · rcases (h1 y).mp (Or.inl h) with h | rfl
          · exact Or.inl h
          · exact Or.inr (Or.inl rfl)
        · exact Or.inr (Or.inr rfl)
      · rcases (h1 y).mp (Or.inr h) with h | rfl
        · exact Or.inl h
        · exact Or.inr (Or.inl rfl)
      · rcases (h2 y).mp (Or.inr h) with h | rfl
        · rcases (h1 y).mp (Or.inl h) with h | rfl
          · exact Or.inl h
          · exact Or.inr (Or.inl rfl)
        · exact Or.inr (Or.inr rfl)
    · rintro (h | rfl | rfl)
      · rcases (h1 y).mpr (Or.inl h) with h | h
        · rcases (h2 y).mpr (Or.inl h) with h | h
          · exact Or.inl h
          · exact Or.inr (Or.inr h)
        · exact Or.inr (Or.inl h)
      · exact Or.inr (Or.inl (removeComp_mem_snd comps y))
      · exact Or.inr (Or.inr (removeComp_mem_snd _ y))

/-- Adding an edge inserts exactly its endpoints into the covered set. -/
theorem coveredSet_addEdge (comps : List (List Key)) (a b : Key) :
    coveredSet (addEdgeComps comps a b) = insert a (insert b (coveredSet comps)) := by
  ext y
  rw [mem_coveredSet, covered_addEdge, Finset.mem_insert, Finset.mem_insert,
    mem_coveredSet]
  tauto

/-- Maintenance of the component invariant under a merging edge: if the
grouping decomposes into kept groups `Rest` and the two endpoint groups
`Ca`, `Cb` (fresh singletons allowed) with the listed separation facts,
then merging `a` and `b` in the DSF matches replacing `Ca`, `Cb` by their
union. -/
theorem merge_inv (d : DSF) (comps Rest : List (List Key)) (Ca Cb : List Key)
    (a b : Key)
    (hi : CompInv d comps)
    (ha : a ∈ Ca) (hb : b ∈ Cb)
    (hdR : Rest.Pairwise (fun C D => ∀ y ∈ C, y ∉ D))
    (hneR : ∀ C ∈ Rest, C ≠ [])
    (hRmem : ∀ C ∈ Rest, C ∈ comps)
    (hRnotNew : ∀ C ∈ Rest, ∀ y ∈ C, y ∉ Ca ∧ y ∉ Cb)
    (hClassA : ∀ x ∈ Ca, d x = d a)
    (hClassB : ∀ x ∈ Cb, d x = d b)
    (hRnotAB : ∀ x, covered Rest x → d x ≠ d a ∧ d x ≠ d b)
    (hOut : ∀ x, ¬ covered Rest x → x ∉ Ca → x ∉ Cb → d x = x)
    (hLoc : ∀ x, (covered Rest x ∨ x ∈ Ca ∨ x ∈ Cb) →
      (covered Rest (d x) ∨ d x ∈ Ca ∨ d x ∈ Cb))
    (hab : d a ≠ d b) :
    CompInv (DSF.merge d a b) (Rest ++ [Ca ++ Cb]) := by
  have hcov' : ∀ y, covered (Rest ++ [Ca ++ Cb]) y ↔
      covered Rest y ∨ y ∈ Ca ∨ y ∈ Cb := by
    intro y
    rw [covered_append, covered_singleton, List.mem_append]
  have hmA : ∀ x, x ∈ Ca ∨ x ∈ Cb → DSF.merge d a b x = d a := by
    intro x hx
    simp only [DSF.merge]
    rcases hx with hx | hx
    · rw [if_neg, hClassA x hx]
      rw [hClassA x hx]
      exact hab
    · rw [if_pos (hClassB x hx)]
  have hmR : ∀ x, covered Rest x → DSF.merge d a b x = d x := by
    intro x hx
    simp only [DSF.merge]
    rw [if_neg (hRnotAB x hx).2]
  refine ⟨?_, ?_, ?_, ?_, ?_⟩
  · rw [List.pairwise_append]
    refine ⟨hdR, List.pairwise_singleton _ _, ?_⟩
    intro C hC D hD y hyC
    rcases List.mem_cons.mp hD with rfl | hD2
    · intro hyD
      rcases List.mem_append.mp hyD with hyD | hyD
      · exact (hRnotNew C hC y hyC).1 hyD
      · exact (hRnotNew C hC y hyC).2 hyD
    · simp at hD2
  · intro C hC
    rcases List.mem_append.mp hC with hC | hC
    · exact hneR C hC
    · rcases List.mem_cons.mp hC with rfl | hC2
      · exact List.ne_nil_of_mem (List.mem_append_left _ ha)
      · simp at hC2
  · intro x hx
    rcases (hcov' x).mp hx with hx2 | hx2
    · rw [hmR x hx2]
      exact (hcov' _).mpr (hLoc x (Or.inl hx2))
    · rw [hmA x hx2]
      exact (hcov' _).mpr (hLoc a (Or.inr (Or.inl ha)))
  · intro x y hx hy
    rw [sameComp_append_singleton]
    rcases (hcov' x).mp hx with hx2 | hx2 <;> rcases (hcov' y).mp hy with hy2 | hy2
    · rw [hmR x hx2, hmR y hy2]
      have hiff : d x = d y ↔ sameComp Rest x y := by
        obtain ⟨C, hC, hxC⟩ := hx2
        obtain ⟨D, hD, hyD⟩ := hy2
        rw [hi.same_iff x y ⟨C, hRmem C hC, hxC⟩ ⟨D, hRmem D hD, hyD⟩]
        constructor
        · rintro ⟨E, hE, hxE, hyE⟩
          have hEC : E = C := disj_unique comps hi.disj E C hE (hRmem C hC) x hxE hxC
          subst hEC
          exact ⟨E, hC, hxC, hyE⟩
        · rintro ⟨E, hE, hxE, hyE⟩
          exact ⟨E, hRmem E hE, hxE, hyE⟩
      rw [hiff]
      constructor
      · exact Or.inl
      · rintro (h | ⟨hxn, hyn⟩)
        · exact h
        · obtain ⟨C, hC, hxC⟩ := hx2
          rcases List.mem_append.mp hxn with h | h
          · exact absurd h (hRnotNew C hC x hxC).1
          · exact absurd h (hRnotNew C hC x hxC).2
    · rw [hmR x hx2, hmA y hy2]
      constructor
      · intro h
        exact absurd h (hRnotAB x hx2).1
      · rintro (⟨E, hE, hxE, hyE⟩ | ⟨hxn, -⟩)
        · rcases hy2 with h | h
          · exact absurd h (hRnotNew E hE y hyE).1
          · exact absurd h (hRnotNew E hE y hyE).2
        · obtain ⟨C, hC, hxC⟩ := hx2
          rcases List.mem_append.mp hxn with h | h
          · exact absurd h (hRnotNew C hC x hxC).1
          · exact absurd h (hRnotNew C hC x hxC).2
    · rw [hmA x hx2, hmR y hy2]
      constructor
      · intro h
        exact absurd h.symm (hRnotAB y hy2).1
      · rintro (⟨E, hE, hxE, hyE⟩ | ⟨-, hyn⟩)
        · rcases hx2 with h | h
          · exact absurd h (hRnotNew E hE x hxE).1
          · exact absurd h (hRnotNew E hE x hxE).2
        · obtain ⟨C, hC, hyC⟩ := hy2
          rcases List.mem_append.mp hyn with h | h
          · exact absurd h (hRnotNew C hC y hyC).1
          · exact absurd h (hRnotNew C hC y hyC).2
    · rw [hmA x hx2, hmA y hy2]
      constructor
      · intro _
        exact Or.inr ⟨List.mem_append.mpr hx2, List.mem_append.mpr hy2⟩
      · intro _
        rfl
  · intro x hx
    rw [hcov' x] at hx
    push_neg at hx
    obtain ⟨hx1, hx2, hx3⟩ := hx
    have hdx : d x = x := hOut x hx1 hx2 hx3
    have hxb : d x ≠ d b := by
      rw [hdx]
      intro hxb
      rcases hLoc b (Or.inr (Or.inr hb)) with h | h | h
      · exact hx1 (by rw [hxb]; exact h)
      · exact hx2 (by rw [hxb]; exact h)
      · exact hx3 (by rw [hxb]; exact h)
    show (if d x = d b then d a else d x) = x
    rw [if_neg hxb, hdx]

theorem covered_ne (comps : List (List Key)) (z a : Key)
    (hz : covered comps z) (hna : ¬ covered comps a) : z ≠ a :=
  fun h => hna (h ▸ hz)

/-- Case: `a` is covered and `b` lies in `a`'s group — the edge closes no
new connection; the DSF representatives already agree and the grouping is
only permuted. -/
theorem addEdge_case_same (d : DSF) (comps : List (List Key)) (a b : Key)
    (hi : CompInv d comps)
    (hcb : b ∈ (removeComp comps a).2) (hcova : covered comps a) :
    d a = d b ∧ CompInv d (addEdgeComps comps a b) ∧
      (addEdgeComps comps a b).length = comps.length ∧
      a ∈ coveredSet comps ∧ b ∈ coveredSet comps := by
  have hsame : sameComp comps a b := (removeComp_same comps a hi.disj hcova b).mpr hcb
  have hcovb : covered comps b := by
    obtain ⟨C, hC, -, hbC⟩ := hsame
    exact ⟨C, hC, hbC⟩
  have hdd : d a = d b := (hi.same_iff a b hcova hcovb).mpr hsame
  have hcomps : addEdgeComps comps a b =
      (removeComp comps a).1 ++ [(removeComp comps a).2] := by
    unfold addEdgeComps
    rw [if_pos hcb]
  obtain ⟨-, hlen, -, -⟩ := removeComp_covered comps a hi.disj hcova
  refine ⟨hdd, ?_, ?_, ?_, ?_⟩
  · rw [hcomps]
    exact CompInv_of_perm d comps _ (removeComp_perm comps a hcova) hi
  · rw [hcomps]
    simp only [List.length_append, List.length_cons, List.length_nil]
    omega
  · exact (mem_coveredSet _ _).mpr hcova
  · exact (mem_coveredSet _ _).mpr hcovb

/-- Case: `a` is unseen and the edge is the self-loop `(a, a)` — the key
enters as a fresh singleton group; the DSF is unchanged. -/
theorem addEdge_case_selfloop (d : DSF) (comps : List (List Key)) (a b : Key)
    (hi : CompInv d comps)
    (hcb : b ∈ (removeComp comps a).2) (hcova : ¬ covered comps a) :
    b = a ∧ CompInv d (addEdgeComps comps a b) ∧
      (addEdgeComps comps a b).length = comps.length + 1 ∧
      a ∉ coveredSet comps := by
  have hp := removeComp_not_covered comps a hcova
  have hba : b = a := by
    rw [hp] at hcb
    simpa using hcb
  have hcomps : addEdgeComps comps a b = comps ++ [[a]] := by
    unfold addEdgeComps
    rw [if_pos hcb, hp]
  have hda : d a = a := hi.out_id a hcova
  have hcov' : ∀ y, covered (comps ++ [[a]]) y ↔ covered comps y ∨ y = a := by
    intro y
    rw [covered_append, covered_singleton, List.mem_singleton]
  refine ⟨hba, ?_, ?_, ?_⟩
  · rw [hcomps]
    refine ⟨?_, ?_, ?_, ?_, ?_⟩
    · rw [List.pairwise_append]
      refine ⟨hi.disj, List.pairwise_singleton _ _, ?_⟩
      intro C hC D hD y hyC
      rcases List.mem_cons.mp hD with rfl | hD2
      · rw [List.mem_singleton]
        exact covered_ne comps y a ⟨C, hC, hyC⟩ hcova
      · simp at hD2
    · intro C hC
      rcases List.mem_append.mp hC with hC | hC
      · exact hi.nonempty C hC
      · rcases List.mem_cons.mp hC with rfl | hC2
        · simp
        · simp at hC2
    · intro x hx
      rcases (hcov' x).mp hx with hx | rfl
      · exact (hcov' _).mpr (Or.inl (hi.rep_cov x hx))
      · rw [hda]
        exact (hcov' _).mpr (Or.inr rfl)
    · intro x y hx hy
      rw [sameComp_append_singleton]
      simp only [List.mem_singleton]
      rcases (hcov' x).mp hx with hx2 | rfl <;> rcases (hcov' y).mp hy with hy2 | rfl
      · rw [hi.same_iff x y hx2 hy2]
        constructor
        · exact Or.inl
        · rintro (h | ⟨rfl, -⟩)
          · exact h
          · exact absurd hx2 hcova
      · constructor
        · intro h
          rw [hda] at h
          exact absurd (h ▸ hi.rep_cov x hx2) hcova
        · rintro (⟨D, hD, -, hyD⟩ | ⟨rfl, -⟩)
          · exact absurd ⟨D, hD, hyD⟩ hcova
          · exact absurd hx2 hcova
      · constructor
        · intro h
          rw [hda] at h
          exact absurd (h.symm ▸ hi.rep_cov y hy2) hcova
        · rintro (⟨D, hD, hxD, -⟩ | ⟨-, rfl⟩)
          · exact absurd ⟨D, hD, hxD⟩ hcova
          · exact absurd hy2 hcova
      · exact ⟨fun _ => Or.inr ⟨rfl, rfl⟩, fun _ => rfl⟩
    · intro x hx
      rw [hcov' x] at hx
      push_neg at hx
      exact hi.out_id x hx.1
  · rw [hcomps]
    simp
  · rw [mem_coveredSet]
    exact hcova

/-- Case: both endpoints unseen and distinct — the edge creates a fresh
two-key group and the DSF merges two singleton sets. -/
theorem addEdge_case_freshfresh (d : DSF) (comps : List (List Key)) (a b : Key)
    (hi : CompInv d comps)
    (hcb : b ∉ (removeComp comps a).2)
    (hcova : ¬ covered comps a) (hcovb : ¬ covered comps b) :
    d a ≠ d b ∧ CompInv (DSF.merge d a b) (addEdgeComps comps a b) ∧
      (addEdgeComps comps a b).length = comps.length + 1 ∧
      a ∉ coveredSet comps ∧ b ∉ coveredSet comps ∧ a ≠ b := by
  have hp := removeComp_not_covered comps a hcova
  have hq := removeComp_not_covered comps b hcovb
  have hba : b ≠ a := by
    rw [hp] at hcb
    simpa using hcb
  have hda : d a = a := hi.out_id a hcova
  have hdb : d b = b := hi.out_id b hcovb
  have hab : d a ≠ d b := by
    rw [hda, hdb]
    exact fun h => hba h.symm
  have hcomps : addEdgeComps comps a b = comps ++ [[a] ++ [b]] := by
    unfold addEdgeComps
    rw [if_neg hcb, hp]
    rw [hq]
  refine ⟨hab, ?_, ?_, ?_, ?_, ?_⟩
  · rw [hcomps]
    refine merge_inv d comps comps [a] [b] a b hi (List.mem_singleton_self a)
      (List.mem_singleton_self b) hi.disj hi.nonempty (fun C hC => hC) ?_ ?_ ?_ ?_ ?_ ?_ hab
    · intro C hC y hyC
      rw [List.mem_singleton, List.mem_singleton]
      exact ⟨covered_ne comps y a ⟨C, hC, hyC⟩ hcova,
        covered_ne comps y b ⟨C, hC, hyC⟩ hcovb⟩
    · intro x hx
      rw [List.mem_singleton] at hx
      rw [hx]
    · intro x hx
      rw [List.mem_singleton] at hx
      rw [hx]
    · intro x hx
      have hdx := hi.rep_cov x hx
      rw [hda, hdb]
      exact ⟨covered_ne comps (d x) a hdx hcova, covered_ne comps (d x) b hdx hcovb⟩
    · intro x hx _ _
      exact hi.out_id x hx
    · intro x hx
      rcases hx with hx | hx | hx
      · exact Or.inl (hi.rep_cov x hx)
      · rw [List.mem_singleton] at hx
        rw [hx, hda]
        exact Or.inr (Or.inl (List.mem_singleton_self a))
      · rw [List.mem_singleton] at hx
        rw [hx, hdb]
        exact Or.inr (Or.inr (List.mem_singleton_self b))
  · rw [hcomps]
    simp
  · rw [mem_coveredSet]
    exact hcova
  · rw [mem_coveredSet]
    exact hcovb
  · exact fun h => hba h.symm

/-- Case: `a` unseen, `b` covered — `a` joins `b`'s group as a fresh key;
the DSF merges `a`'s singleton with `b`'s set. -/
theorem addEdge_case_freshcov (d : DSF) (comps : List (List Key)) (a b : Key)
    (hi : CompInv d comps)
    (hcova : ¬ covered comps a) (hcovb : covered comps b) :
    d a ≠ d b ∧ CompInv (DSF.merge d a b) (addEdgeComps comps a b) ∧
      (addEdgeComps comps a b).length = comps.length ∧
      a ∉ coveredSet comps ∧ b ∈ coveredSet comps := by
  have hp := removeComp_not_covered comps a hcova
  have hq := removeComp_covered comps b hi.disj hcovb
  have hda : d a = a := hi.out_id a hcova
  have hdbcov : covered comps (d b) := hi.rep_cov b hcovb
  have hab : d a ≠ d b := by
    rw [hda]
    exact fun h => hcova (h ▸ hdbcov)
  have hcb : b ∉ (removeComp comps a).2 := by
    rw [hp]
    simpa using covered_ne comps b a hcovb hcova
  have hcomps : addEdgeComps comps a b =
      (removeComp comps b).1 ++ [[a] ++ (removeComp comps b).2] := by
    unfold addEdgeComps
    rw [if_neg hcb, hp]
  have hsnd : ∀ x ∈ (removeComp comps b).2, covered comps x :=
    fun x hx => ⟨_, hq.1, hx⟩
  have hclassB : ∀ x ∈ (removeComp comps b).2, d x = d b := by
    intro x hx
    exact ((hi.same_iff b x hcovb (hsnd x hx)).mpr
      ⟨_, hq.1, removeComp_mem_snd comps b, hx⟩).symm
  have hrcov : ∀ x, covered (removeComp comps b).1 x → covered comps x := by
    rintro x ⟨C, hC, hxC⟩
    exact ⟨C, hq.2.2.1 C hC, hxC⟩
  refine ⟨hab, ?_, ?_, ?_, ?_⟩
  · rw [hcomps]
    refine merge_inv d comps (removeComp comps b).1 [a] (removeComp comps b).2 a b
      hi (List.mem_singleton_self a) (removeComp_mem_snd comps b)
      (List.Pairwise.sublist (removeComp_sublist comps b) hi.disj)
      (fun C hC => hi.nonempty C (hq.2.2.1 C hC)) hq.2.2.1 ?_ ?_ hclassB ?_ ?_ ?_ hab
    · intro C hC y hyC
      rw [List.mem_singleton]
      exact ⟨covered_ne comps y a ⟨C, hq.2.2.1 C hC, hyC⟩ hcova,
        hq.2.2.2 C hC y hyC⟩
    · intro x hx
      rw [List.mem_singleton] at hx
      rw [hx]
    · intro x hx
      have hcovx := hrcov x hx
      constructor
      · rw [hda]
        exact covered_ne comps (d x) a (hi.rep_cov x hcovx) hcova
      · intro hdx
        have hsame : sameComp comps x b := (hi.same_iff x b hcovx hcovb).mp hdx
        obtain ⟨D, hD, hxD, hbD⟩ := hsame
        have hDsnd : D = (removeComp comps b).2 :=
          disj_unique comps hi.disj D _ hD hq.1 b hbD (removeComp_mem_snd comps b)
        obtain ⟨C, hC, hxC⟩ := hx
        exact hq.2.2.2 C hC x hxC (hDsnd ▸ hxD)
    · intro x hx hxa hxs
      apply hi.out_id
      intro hcovx
      rcases (removeComp_cov_union comps b x).mpr (Or.inl hcovx) with h | h
      · exact hx h
      · exact hxs h
    · intro x hx
      have hloc : ∀ z, covered comps z →
          (covered (removeComp comps b).1 z ∨ z ∈ [a] ∨ z ∈ (removeComp comps b).2) := by
        intro z hz
        rcases (removeComp_cov_union comps b z).mpr (Or.inl hz) with h | h
        · exact Or.inl h
        · exact Or.inr (Or.inr h)
      rcases hx with hx | hx | hx
      · exact hloc _ (hi.rep_cov x (hrcov x hx))
      · rw [List.mem_singleton] at hx
        rw [hx, hda]
        exact Or.inr (Or.inl (List.mem_singleton_self a))
      · rw [hclassB x hx]
        exact hloc _ hdbcov
  · rw [hcomps]
    simp only [List.length_append, List.length_cons, List.length_nil]
    omega
  · rw [mem_coveredSet]
    exact hcova
  · rw [mem_coveredSet]
    exact hcovb

/-- Case: `a` covered, `b` unseen — `b` joins `a`'s group as a fresh key. -/
theorem addEdge_case_covfresh (d : DSF) (comps : List (List Key)) (a b : Key)
    (hi : CompInv d comps)
    (hcova : covered comps a) (hcovb : ¬ covered comps b) :
    d a ≠ d b ∧ CompInv (DSF.merge d a b) (addEdgeComps comps a b) ∧
      (addEdgeComps comps a b).length = comps.length ∧
      a ∈ coveredSet comps ∧ b ∉ coveredSet comps := by
  have hp := removeComp_covered comps a hi.disj hcova
  have hdb : d b = b := hi.out_id b hcovb
  have hdacov : covered comps (d a) := hi.rep_cov a hcova
  have hab : d a ≠ d b := by
    rw [hdb]
    exact covered_ne comps (d a) b hdacov hcovb
  have hsnd : ∀ x ∈ (removeComp comps a).2, covered comps x :=
    fun x hx => ⟨_, hp.1, hx⟩
  have hcb : b ∉ (removeComp comps a).2 := fun h => hcovb (hsnd b h)
  have hnq : ¬ covered (removeComp comps a).1 b := by
    rintro ⟨C, hC, hbC⟩
    exact hcovb ⟨C, hp.2.2.1 C hC, hbC⟩
  have hq := removeComp_not_covered (removeComp comps a).1 b hnq
  have hcomps : addEdgeComps comps a b =
      (removeComp comps a).1 ++ [(removeComp comps a).2 ++ [b]] := by
    unfold addEdgeComps
    rw [if_neg hcb, hq]
  have hclassA : ∀ x ∈ (removeComp comps a).2, d x = d a := by
    intro x hx
    exact ((hi.same_iff a x hcova (hsnd x hx)).mpr
      ⟨_, hp.1, removeComp_mem_snd comps a, hx⟩).symm
  have hrcov : ∀ x, covered (removeComp comps a).1 x → covered comps x := by
    rintro x ⟨C, hC, hxC⟩
    exact ⟨C, hp.2.2.1 C hC, hxC⟩
  refine ⟨hab, ?_, ?_, ?_, ?_⟩
  · rw [hcomps]
    refine merge_inv d comps (removeComp comps a).1 (removeComp comps a).2 [b] a b
      hi (removeComp_mem_snd comps a) (List.mem_singleton_self b)
      (List.Pairwise.sublist (removeComp_sublist comps a) hi.disj)
      (fun C hC => hi.nonempty C (hp.2.2.1 C hC)) hp.2.2.1 ?_ hclassA ?_ ?_ ?_ ?_ hab
    · intro C hC y hyC
      rw [List.mem_singleton]
      exact ⟨hp.2.2.2 C hC y hyC,
        covered_ne comps y b ⟨C, hp.2.2.1 C hC, hyC⟩ hcovb⟩
    · intro x hx
      rw [List.mem_singleton] at hx
      rw [hx]
    · intro x hx
      have hcovx := hrcov x hx
      constructor
      · intro hdx
        have hsame : sameComp comps x a := (hi.same_iff x a hcovx hcova).mp hdx
        obtain ⟨D, hD, hxD, haD⟩ := hsame
        have hDsnd : D = (removeComp comps a).2 :=
          disj_unique comps hi.disj D _ hD hp.1 a haD (removeComp_mem_snd comps a)
        obtain ⟨C, hC, hxC⟩ := hx
        exact hp.2.2.2 C hC x hxC (hDsnd ▸ hxD)
      · rw [hdb]
        exact covered_ne comps (d x) b (hi.rep_cov x hcovx) hcovb
    · intro x hx hxs hxb
      apply hi.out_id
      intro hcovx
      rcases (removeComp_cov_union comps a x).mpr (Or.inl hcovx) with h | h
      · exact hx h
      · exact hxs h
    · intro x hx
      have hloc : ∀ z, covered comps z →
          (covered (removeComp comps a).1 z ∨ z ∈ (removeComp comps a).2 ∨ z ∈ [b]) := by
        intro z hz
        rcases (removeComp_cov_union comps a z).mpr (Or.inl hz) with h | h
        · exact Or.inl h
        · exact Or.inr (Or.inl h)
      rcases hx with hx | hx | hx
      · exact hloc _ (hi.rep_cov x (hrcov x hx))
      · rw [hclassA x hx]
        exact hloc _ hdacov
      · rw [List.mem_singleton] at hx
        rw [hx, hdb]
        exact Or.inr (Or.inr (List.mem_singleton_self b))
  · rw [hcomps]
    simp only [List.length_append, List.length_cons, List.length_nil]
    omega
  · rw [mem_coveredSet]
    exact hcova
  · rw [mem_coveredSet]
    exact hcovb

/-- Case: both endpoints covered in different groups — the edge joins two
existing groups; one group disappears. -/
theorem addEdge_case_covcov (d : DSF) (comps : List (List Key)) (a b : Key)
    (hi : CompInv d comps)
    (hcb : b ∉ (removeComp comps a).2)
    (hcova : covered comps a) (hcovb : covered comps b) :
    d a ≠ d b ∧ CompInv (DSF.merge d a b) (addEdgeComps comps a b) ∧
      (addEdgeComps comps a b).length + 1 = comps.length ∧
      a ∈ coveredSet comps ∧ b ∈ coveredSet comps := by
  have hp := removeComp_covered comps a hi.disj hcova
  have hab : d a ≠ d b := by
    intro hdd
    exact hcb ((removeComp_same comps a hi.disj hcova b).mp
      ((hi.same_iff a b hcova hcovb).mp hdd))
  have hcovp1b : covered (removeComp comps a).1 b := by
    rcases (removeComp_cov_union comps a b).mpr (Or.inl hcovb) with h | h
    · exact h
    · exact absurd h hcb
  have hdp1 : (removeComp comps a).1.Pairwise (fun C D => ∀ y ∈ C, y ∉ D) :=
    List.Pairwise.sublist (removeComp_sublist comps a) hi.disj
  have hq := removeComp_covered (removeComp comps a).1 b hdp1 hcovp1b
  have hcomps : addEdgeComps comps a b =
      (removeComp (removeComp comps a).1 b).1 ++
        [(removeComp comps a).2 ++ (removeComp (removeComp comps a).1 b).2] := by
    unfold addEdgeComps
    rw [if_neg hcb]
  have hqmem : ∀ C ∈ (removeComp (removeComp comps a).1 b).1, C ∈ comps :=
    fun C hC => hp.2.2.1 _ (hq.2.2.1 C hC)
  have hsndq_p1 : (removeComp (removeComp comps a).1 b).2 ∈ (removeComp comps a).1 :=
    hq.1
  have hsndq_comps : (removeComp (removeComp comps a).1 b).2 ∈ comps :=
    hp.2.2.1 _ hq.1
  have hclassA : ∀ x ∈ (removeComp comps a).2, d x = d a := by
    intro x hx
    exact ((hi.same_iff a x hcova ⟨_, hp.1, hx⟩).mpr
      ⟨_, hp.1, removeComp_mem_snd comps a, hx⟩).symm
  have hclassB : ∀ x ∈ (removeComp (removeComp comps a).1 b).2, d x = d b := by
    intro x hx
    exact ((hi.same_iff b x hcovb ⟨_, hsndq_comps, hx⟩).mpr
      ⟨_, hsndq_comps, removeComp_mem_snd _ b, hx⟩).symm
  have hrcov : ∀ x, covered (removeComp (removeComp comps a).1 b).1 x →
      covered comps x := by
    rintro x ⟨C, hC, hxC⟩
    exact ⟨C, hqmem C hC, hxC⟩
  refine ⟨hab, ?_, ?_, ?_, ?_⟩
  · rw [hcomps]
    refine merge_inv d comps (removeComp (removeComp comps a).1 b).1
      (removeComp comps a).2 (removeComp (removeComp comps a).1 b).2 a b
      hi (removeComp_mem_snd comps a) (removeComp_mem_snd _ b)
      (List.Pairwise.sublist (removeComp_sublist _ b) hdp1)
      (fun C hC => hi.nonempty C (hqmem C hC)) hqmem ?_ hclassA hclassB ?_ ?_ ?_ hab
    · intro C hC y hyC
      exact ⟨hp.2.2.2 _ (hq.2.2.1 C hC) y hyC, hq.2.2.2 C hC y hyC⟩
    · intro x hx
      have hcovx := hrcov x hx
      obtain ⟨C, hC, hxC⟩ := hx
      constructor
      · intro hdx
        have hsame : sameComp comps x a := (hi.same_iff x a hcovx hcova).mp hdx
        obtain ⟨D, hD, hxD, haD⟩ := hsame
        have hDsnd : D = (removeComp comps a).2 :=
          disj_unique comps hi.disj D _ hD hp.1 a haD (removeComp_mem_snd comps a)
        exact hp.2.2.2 _ (hq.2.2.1 C hC) x hxC (hDsnd ▸ hxD)
      · intro hdx
        have hsame : sameComp comps x b := (hi.same_iff x b hcovx hcovb).mp hdx
        obtain ⟨D, hD, hxD, hbD⟩ := hsame
        have hDC : D = C := disj_unique comps hi.disj D C hD (hqmem C hC) x hxD hxC
        exact hq.2.2.2 C hC b (hDC ▸ hbD) (removeComp_mem_snd _ b)
    · intro x hx hxs hxq
      apply hi.out_id
      intro hcovx
      rcases (removeComp_cov_union comps a x).mpr (Or.inl hcovx) with h | h
      · rcases (removeComp_cov_union (removeComp comps a).1 b x).mpr (Or.inl h) with h2 | h2
        · exact hx h2
        · exact hxq h2
      · exact hxs h
    · intro x hx
      have hloc : ∀ z, covered comps z →
          (covered (removeComp (removeComp comps a).1 b).1 z ∨
            z ∈ (removeComp comps a).2 ∨
            z ∈ (removeComp (removeComp comps a).1 b).2) := by
        intro z hz
        rcases (removeComp_cov_union comps a z).mpr (Or.inl hz) with h | h
        · rcases (removeComp_cov_union (removeComp comps a).1 b z).mpr (Or.inl h) with h2 | h2
          · exact Or.inl h2
          · exact Or.inr (Or.inr h2)
        · exact Or.inr (Or.inl h)
      rcases hx with hx | hx | hx
      · exact hloc _ (hi.rep_cov x (hrcov x hx))
      · rw [hclassA x hx]
        exact hloc _ (hi.rep_cov a hcova)
      · rw [hclassB x hx]
        exact hloc _ (hi.rep_cov b hcovb)
  · rw [hcomps]
    simp only [List.length_append, List.length_cons, List.length_nil]
    omega
  · rw [mem_coveredSet]
    exact hcova
  · rw [mem_coveredSet]
    exact hcovb

/-- One edge step: the invariant is maintained (merging in the DSF exactly
when the representatives differ), and the group count plus covered-key
count balance, with one extra unit exactly when the edge is a tree edge. -/
theorem addEdge_step (d : DSF) (comps : List (List Key)) (a b : Key)
    (hi : CompInv d comps) :
    CompInv (if d a = d b then d else DSF.merge d a b) (addEdgeComps comps a b) ∧
      (addEdgeComps comps a b).length + (coveredSet comps).card +
          (if d a = d b then 0 else 1)
        = comps.length + (coveredSet (addEdgeComps comps a b)).card := by
  rw [coveredSet_addEdge]
  by_cases hcb : b ∈ (removeComp comps a).2
  · by_cases hcova : covered comps a
    · obtain ⟨hdd, hinv, hlen, hav, hbv⟩ :=
        addEdge_case_same d comps a b hi hcb hcova
      rw [if_pos hdd, if_pos hdd]
      refine ⟨hinv, ?_⟩
      rw [Finset.insert_eq_self.mpr hbv, Finset.insert_eq_self.mpr hav]
      omega
    · obtain ⟨hba, hinv, hlen, hav⟩ :=
        addEdge_case_selfloop d comps a b hi hcb hcova
      subst hba
      rw [if_pos rfl, if_pos rfl]
      refine ⟨hinv, ?_⟩
      rw [Finset.insert_idem, Finset.card_insert_of_not_mem hav]
      omega
  · by_cases hcova : covered comps a <;> by_cases hcovb : covered comps b
    · obtain ⟨hab, hinv, hlen, hav, hbv⟩ :=
        addEdge_case_covcov d comps a b hi hcb hcova hcovb
      rw [if_neg hab, if_neg hab]
      refine ⟨hinv, ?_⟩
      rw [Finset.insert_eq_self.mpr hbv, Finset.insert_eq_self.mpr hav]
      omega
    · obtain ⟨hab, hinv, hlen, hav, hbv⟩ :=
        addEdge_case_covfresh d comps a b hi hcova hcovb
      rw [if_neg hab, if_neg hab]
      refine ⟨hinv, ?_⟩
      rw [Finset.insert_eq_self.mpr (Finset.mem_insert_of_mem hav),
        Finset.card_insert_of_not_mem hbv]
      omega
    · obtain ⟨hab, hinv, hlen, hav, hbv⟩ :=
        addEdge_case_freshcov d comps a b hi hcova hcovb
      rw [if_neg hab, if_neg hab]
      refine ⟨hinv, ?_⟩
      rw [Finset.insert_eq_self.mpr hbv, Finset.card_insert_of_not_mem hav]
      omega
    · obtain ⟨hab, hinv, hlen, hav, hbv, hba⟩ :=
        addEdge_case_freshfresh d comps a b hi hcb hcova hcovb
      rw [if_neg hab, if_neg hab]
      refine ⟨hinv, ?_⟩
      rw [Finset.card_insert_of_not_mem, Finset.card_insert_of_not_mem hbv]
      · omega
      · rw [Finset.mem_insert]
        push_neg
        exact ⟨hba, hav⟩

/-- The invariant run along a successful splitter loop: binary tree-factor
count plus group count accounts exactly for the growth of the covered-key
set. -/
theorem splitAux_forest (fs : List Factor) : ∀ d t c comps d2 t2 c2,
    CompInv d comps →
    splitAux d t c fs = .ok (d2, t2, c2) →
    countBin t2 + (fs.foldl compStep comps).length + (coveredSet comps).card
      = countBin t + comps.length + (coveredSet (fs.foldl compStep comps)).card := by
  induction fs with
  | nil =>
    intro d t c comps d2 t2 c2 hinv h
    simp only [splitAux, Except.ok.injEq, Prod.mk.injEq] at h
    rw [List.foldl_nil, ← h.2.1]
  | cons f fs ih =>
    intro d t c comps d2 t2 c2 hinv h
    simp only [splitAux] at h
    split at h
    · exact absurd h (by simp)
    · rename_i hgt
      split at h
      · rename_i h1
        have hk : ∃ k, f.keys = [k] := by
          cases hx : f.keys with
          | nil => rw [hx] at h1; simp at h1
          | cons k rest =>
            cases rest with
            | nil => exact ⟨k, rfl⟩
            | cons k2 r2 => rw [hx] at h1; simp at h1
        obtain ⟨k, hk⟩ := hk
        have hedge : factorEdge f = none := by
          unfold factorEdge
          rw [hk]
        have hstep : compStep comps f = comps := by
          unfold compStep
          rw [hedge]
        have hcb : countBin (t ++ [f]) = countBin t := by
          unfold countBin
          rw [List.countP_append]
          have hfalse : (f.keys.length == 2) = false := by rw [h1]; rfl
          simp [List.countP_cons, hfalse]
        have hih := ih d (t ++ [f]) c comps d2 t2 c2 hinv h
        rw [List.foldl_cons, hstep]
        omega
      · split at h
        · rename_i a b h0 h1
          have hpair : f.keys = [a, b] := keys_eq_pair _ _ _ hgt h0 h1
          have hedge : factorEdge f = some (a, b) := by
            unfold factorEdge
            rw [hpair]
          have hstep : compStep comps f = addEdgeComps comps a b := by
            unfold compStep
            rw [hedge]
          have hcb : countBin (t ++ [f]) = countBin t + 1 := by
            unfold countBin
            rw [List.countP_append]
            have htrue : (f.keys.length == 2) = true := by rw [hpair]; rfl
            simp [List.countP_cons, htrue]
          split at h
          · rename_i hne
            have hne2 : d a ≠ d b := hne
            have hstep2 := addEdge_step d comps a b hinv
            rw [if_neg hne2, if_neg hne2] at hstep2
            have hih := ih (DSF.merge d a b) (t ++ [f]) c (addEdgeComps comps a b)
              d2 t2 c2 hstep2.1 h
            rw [List.foldl_cons, hstep]
            omega
          · rename_i heq
            have heq2 : d a = d b := not_not.mp heq
            have hstep2 := addEdge_step d comps a b hinv
            rw [if_pos heq2, if_pos heq2] at hstep2
            have hih := ih d t (c ++ [f]) (addEdgeComps comps a b)
              d2 t2 c2 hstep2.1 h
            rw [List.foldl_cons, hstep]
            omega
        · exact absurd h (by simp)

/-- The keys covered by the component computation are exactly the keys
touched by binary factors (plus whatever the initial grouping covered). -/
theorem coveredSet_foldl (fs : List Factor) : ∀ comps,
    coveredSet (fs.foldl compStep comps) = binTouched fs ∪ coveredSet comps := by
  induction fs with
  | nil =>
    intro comps
    show coveredSet comps = binTouched [] ∪ coveredSet comps
    have : binTouched [] = ∅ := rfl
    rw [this, Finset.empty_union]
  | cons f fs ih =>
    intro comps
    rw [List.foldl_cons, ih (compStep comps f)]
    cases hedge : factorEdge f with
    | none =>
      have hstep : compStep comps f = comps := by
        unfold compStep
        rw [hedge]
      have hbt : binTouched (f :: fs) = binTouched fs := by
        unfold binTouched
        rw [List.foldr_cons, hedge]
      rw [hstep, hbt]
    | some e =>
      have hstep : compStep comps f = addEdgeComps comps e.1 e.2 := by
        unfold compStep
        rw [hedge]
      have hbt : binTouched (f :: fs) = insert e.1 (insert e.2 (binTouched fs)) := by
        unfold binTouched
        rw [List.foldr_cons, hedge]
      rw [hstep, hbt, coveredSet_addEdge]
      ext y
      simp only [Finset.mem_union, Finset.mem_insert]
      tauto

/-- **C6**: for every accepted input graph, the number of binary factors
placed in the tree output equals the number of distinct variables touched
by binary factors minus the number of connected components of the
binary-factor graph (the binary tree factors form a spanning forest);
stated both in subtracted and additive form. -/
theorem splitGraph_spanning_forest (g t c : List Factor)
    (h : splitGraph g = .ok (t, c)) :
    countBin t = (binTouched g).card - numComponents g ∧
      countBin t + numComponents g = (binTouched g).card := by
  obtain ⟨d, hx⟩ := splitGraph_ok g t c h
  have hinv0 : CompInv DSF.empty [] := by
    refine ⟨List.Pairwise.nil, ?_, ?_, ?_, ?_⟩
    · intro C hC
      simp at hC
    · intro x hx2
      exact absurd hx2 (covered_nil x)
    · intro x y hx2
      exact absurd hx2 (covered_nil x)
    · intro x _
      rfl
  have hrun := splitAux_forest g DSF.empty [] [] [] d t c hinv0 hx
  have hcs := coveredSet_foldl g []
  have hcov0 : coveredSet ([] : List (List Key)) = ∅ := rfl
  rw [hcov0, Finset.union_empty] at hcs
  rw [hcov0] at hrun
  have hnum : numComponents g = (g.foldl compStep []).length := rfl
  have hbt : (coveredSet (g.foldl compStep [])).card = (binTouched g).card := by
    rw [hcs]
  have hadd : countBin t + numComponents g = (binTouched g).card := by
    have hc0 : countBin ([] : List Factor) = 0 := rfl
    have hce : (∅ : Finset Key).card = 0 := rfl
    have hl0 : ([] : List (List Key)).length = 0 := rfl
    rw [hnum]
    omega
  exact ⟨by omega, hadd⟩

/-- Witness for C6 on the triangle graph: 2 tree edges, 3 touched
variables, 1 connected component. -/
theorem splitGraph_spanning_forest_witness :
    countBin [Factor.mk [1, 2], Factor.mk [2, 3]] =
        (binTouched [Factor.mk [1, 2], Factor.mk [2, 3], Factor.mk [1, 3]]).card -
          numComponents [Factor.mk [1, 2], Factor.mk [2, 3], Factor.mk [1, 3]] ∧
      countBin [Factor.mk [1, 2], Factor.mk [2, 3]] +
          numComponents [Factor.mk [1, 2], Factor.mk [2, 3], Factor.mk [1, 3]] =
        (binTouched [Factor.mk [1, 2], Factor.mk [2, 3], Factor.mk [1, 3]]).card :=
  splitGraph_spanning_forest
    [Factor.mk [1, 2], Factor.mk [2, 3], Factor.mk [1, 3]]
    [Factor.mk [1, 2], Factor.mk [2, 3]] [Factor.mk [1, 3]] (by decide)
